import Mathlib

/-!
Verification of the SQL-request lifecycle engine of the reporting-engine
repository (modules `sql_request_abstract` and `bi_sql_editor`).

The Python sources are shallowly embedded as executable Lean definitions:

* `sql_request_abstract/models/sql_request_mixin.py`:
  `_clean_query`, `_check_prohibited_words`, `_execute_sql_request`.
* `bi_sql_editor/models/bi_sql_view.py`:
  the schema-synchronization part of `_check_execution`,
  `button_reset_to_sql_valid`, and the `_check_index_materialized`
  constraint.

Fallible code (Python exceptions) is modelled with `Option`: `none` means
the Python code raises.  Database records are modelled as explicit
structures; record mutation is explicit state passing.
-/

/-! ## Generic string helpers (Python semantics, ASCII fragment) -/

/-- The whitespace characters removed by Python `str.strip()` (ASCII part). -/
def isPySpace (c : Char) : Bool :=
  c == ' ' || c == '\t' || c == '\n' || c == '\r' || c == '\x0b' || c == '\x0c'

/-- Python `str.rstrip()`: remove trailing whitespace. -/
def pyRstrip (s : String) : String :=
  ⟨(s.data.reverse.dropWhile isPySpace).reverse⟩

/-- Python `str.strip()`: remove leading and trailing whitespace. -/
def pyStrip (s : String) : String :=
  ⟨((s.data.dropWhile isPySpace).reverse.dropWhile isPySpace).reverse⟩

/-- Python `str.lower()` (ASCII fragment, which covers the SQL keywords). -/
def pyLower (s : String) : String :=
  ⟨s.data.map Char.toLower⟩

/-- One step of the Python substring test `a in b`, on character lists. -/
def listInfixOf : List Char → List Char → Bool
  | a, [] => a.isEmpty
  | a, c :: rest => a.isPrefixOf (c :: rest) || listInfixOf a rest

/-- Python `a in b` on strings: `a` occurs as a contiguous substring of `b`
(the empty string is a substring of everything). -/
def isSubstringOf (a b : String) : Bool :=
  listInfixOf a.data b.data

/-! ## `sql_request_mixin.py`: `_clean_query` -/

/-- The `while query[-1] == ";"` loop of `_clean_query`, run on the REVERSED
character list of the stripped query.  `none` models the `IndexError`
raised by `query[-1]` on the empty string. -/
def cleanQueryLoop : List Char → Option (List Char)
  | [] => none
  | c :: rest => if c = ';' then cleanQueryLoop rest else some (c :: rest)

/-- Model of `_clean_query` (sql_request_mixin.py lines 290-295): strip surrounding
whitespace, then repeatedly drop a trailing `;`.  Returns the cleaned query,
or `none` when the Python code raises `IndexError` (indexing `query[-1]`
on an empty string). -/
def clean_query (q : String) : Option String :=
  match cleanQueryLoop (pyStrip q).data.reverse with
  | none => none
  | some r => some ⟨r.reverse⟩

/-! ## `sql_request_mixin.py`: `_check_prohibited_words` -/

/-- The `PROHIBITED_WORDS` list of `SQLRequestMixin` (sql_request_mixin.py lines 41-51). -/
def PROHIBITED_WORDS : List String :=
  ["delete", "drop", "insert", "alter", "truncate", "execute", "create",
   "update", "ir_config_parameter"]

/-- A regex word character (`\w` over the ASCII fragment): letter, digit
or underscore. -/
def isWordChar (c : Char) : Bool :=
  c.isAlphanum || c == '_'

/-- A `\b` word boundary is satisfied next to this optional neighbouring
character: either there is no neighbour, or it is not a word character
(all searched words consist of word characters only). -/
def boundaryOk : Option Char → Bool
  | none => true
  | some c => !isWordChar c

/-- Does the word `w` occur at the current position (start of `l`, with
`prev` the character just before the position), with `\b` boundaries on
both sides? -/
def wholeWordAt (prev : Option Char) (w l : List Char) : Bool :=
  w.isPrefixOf l && boundaryOk prev && boundaryOk (l.drop w.length).head?

/-- Scan of `re.search(rf"\b{word}\b", query)`: try every position of the
text, keeping track of the previous character for the left boundary. -/
def searchWholeWord (w : List Char) : Option Char → List Char → Bool
  | prev, [] => wholeWordAt prev w []
  | prev, c :: rest => wholeWordAt prev w (c :: rest) || searchWholeWord w (some c) rest

/-- Test that `re.search(rf"\b{w}\b", text)` is some match (for the all-word-character
words of the blacklist). -/
def containsWholeWord (text w : String) : Bool :=
  searchWholeWord w.data none text.data

/-- Model of `_check_prohibited_words` (sql_request_mixin.py lines 297-312): lower
the query, then scan the blacklist in order; the first word found is the
one named by the raised `UserError`.  `some w` models the raise, `none`
means the check passes. -/
def check_prohibited_words (q : String) : Option String :=
  PROHIBITED_WORDS.find? (fun w => containsWholeWord (pyLower q) w)

/-- Specification-side predicate for C3 (stated from the spec text, to be
compared with the scanning implementation extracted from the source):
`w` occurs in `text` as a whole word, i.e. `text` splits as
`pre ++ w ++ post` where the character adjacent to `w` on either side
(when present) is not a word character. -/
def SpecWholeWord (text w : String) : Prop :=
  ∃ pre post : List Char, text.data = pre ++ w.data ++ post
    ∧ boundaryOk pre.getLast? = true ∧ boundaryOk post.head? = true

/-! ## `sql_request_mixin.py`: `_execute_sql_request` -/

/-- Outcome of `_execute_sql_request` (sql_request_mixin.py lines 155-249).
`errNotChecked` is the `UserError` on draft requests,
`errUnimplementedMode` the `UserError` of the final `else` branch,
`errMatViewUnavailable` the `UserError` of
`_check_materialized_view_available`, and `run stmt rb` means the SQL text
`stmt` is executed with rollback flag `rb`. -/
inductive ExecOutcome where
  | errNotChecked
  | errUnimplementedMode (mode : String)
  | errMatViewUnavailable
  | run (statement : String) (rollback : Bool)
  deriving DecidableEq, Repr

/-- Model of `_execute_sql_request`.  Here `query` stands for the parameter-substituted
(`cr.mogrify`) query text; `matViewAvailable` abstracts the PostgreSQL
version check of `_check_materialized_view_available`.  Faithful details of
the source:

* the draft check comes first (line 202);
* rollback is forced to `False` only for `mode in ("view",
  "materialized_view")`, a tuple membership, i.e. exact equality (line 206);
* the dispatch uses `elif mode in "view"` and
  `elif mode in "materialized_view"` (lines 217, 219), which in Python is a
  SUBSTRING test on the mode string;
* the view statements are built by
  `SQL("CREATE VIEW {0} AS ({1});").format(SQL(query), SQL(view_name))`
  (lines 218 and 221-223), so the query text is substituted for `{0}` and
  the view name for `{1}`. -/
def execute_sql_request (state query mode : String) (rollback : Bool)
    (view_name copy_options : String) (matViewAvailable : Bool) : ExecOutcome :=
  if state = "draft" then ExecOutcome.errNotChecked
  else
    let rb := if mode = "view" ∨ mode = "materialized_view" then false else rollback
    if mode = "fetchone" ∨ mode = "fetchall" then ExecOutcome.run query rb
    else if mode = "stdout" then
      ExecOutcome.run ("COPY (" ++ query ++ ") TO STDOUT WITH " ++ copy_options) rb
    else if isSubstringOf mode "view" then
      ExecOutcome.run ("CREATE VIEW " ++ query ++ " AS (" ++ view_name ++ ");") rb
    else if isSubstringOf mode "materialized_view" then
      if matViewAvailable then
        ExecOutcome.run ("CREATE MATERIALIZED VIEW " ++ query ++ " AS (" ++ view_name ++ ");") rb
      else ExecOutcome.errMatViewUnavailable
    else ExecOutcome.errUnimplementedMode mode

/-! ## `bi_sql_view.py`: the schema synchronization of `_check_execution` -/

/-- A `bi.sql.view.field` record, as far as the synchronization touches it.
`id` is the database id, `is_index` the index flag used by the
`_check_index_materialized` constraint. -/
structure SqlField where
  id : Nat
  name : String
  sequence : Nat
  sql_type : String
  is_index : Bool
  deriving DecidableEq, Repr

/-- One entry of the introspected column manifest: `(attnum, attname,
format_type)` as returned by `_hook_executed_request`. -/
structure Column where
  num : Nat
  name : String
  ctype : String
  deriving DecidableEq, Repr

/-- Mutable state of the reconciliation loop of `_check_execution`:
the next fresh database id, the current field records of the view, and the
accumulated `field_ids` list of ids to keep. -/
structure SyncState where
  nextId : Nat
  flds : List SqlField
  kept : List Nat
  deriving DecidableEq, Repr

/-- The write `existing_field.write({"sequence": column[0], "sql_type": column[2]})`:
overwrite sequence and sql_type of the record(s) with the given id. -/
def writeField (c : Column) (fid : Nat) (fs : List SqlField) : List SqlField :=
  fs.map fun g => if g.id = fid then { g with sequence := c.num, sql_type := c.ctype } else g

/-- The field created by `sql_view_field_obj.create({...})` for column `c`
(bi_sql_view.py lines 642-651); `is_index` takes the model default `False`. -/
def newField (n : Nat) (c : Column) : SqlField :=
  ⟨n, c.name, c.num, c.ctype, false⟩

/-- One iteration of the `for column in columns` loop of `_check_execution`
(bi_sql_view.py lines 631-651).  `filtered(lambda x: x.name == c[1])`
selects the fields by name; a match appends its id to `field_ids` and
overwrites sequence/type; no match creates a field exactly when the column
name starts with `x_` (`column[1][:2] == "x_"`).  `none` models the
singleton error Odoo raises for `existing_field.id` when several records
share the name. -/
def syncStep (st : SyncState) (c : Column) : Option SyncState :=
  match st.flds.filter (fun f => f.name == c.name) with
  | [] =>
      if c.name.take 2 = "x_" then
        some ⟨st.nextId + 1, st.flds ++ [newField st.nextId c], st.kept ++ [st.nextId]⟩
      else some st
  | [f] => some ⟨st.nextId, writeField c f.id st.flds, st.kept ++ [f.id]⟩
  | _ => none

/-- The full `for column in columns` loop. -/
def syncLoop : SyncState → List Column → Option SyncState
  | st, [] => some st
  | st, c :: cs =>
    match syncStep st c with
    | none => none
    | some st' => syncLoop st' cs

/-- The final `filtered(lambda x: x.id not in field_ids).unlink()`:
only fields whose id was collected survive. -/
def keptFields (st : SyncState) : List SqlField :=
  st.flds.filter (fun f => st.kept.contains f.id)

/-- The whole reconciliation of `_check_execution`: run the loop starting
from the view fields `fs` (with `n` the next fresh id), then unlink the
obsolete fields.  Returns the next fresh id and the surviving field list. -/
def syncFields (n : Nat) (fs : List SqlField) (cols : List Column) :
    Option (Nat × List SqlField) :=
  match syncLoop ⟨n, fs, []⟩ cols with
  | none => none
  | some st => some (st.nextId, keptFields st)

/-- Result of `_check_execution` after the reconciliation:
`noColumn` is the `UserError("No Column was found...")` raised when the
field collection ends up empty (bi_sql_view.py lines 656-659). -/
inductive SyncResult where
  | singletonError
  | noColumn
  | ok (nextId : Nat) (flds : List SqlField)
  deriving DecidableEq, Repr

/-- The reconciliation part of `_check_execution` including the final
empty-collection check. -/
def check_execution (n : Nat) (fs : List SqlField) (cols : List Column) : SyncResult :=
  match syncFields n fs cols with
  | none => SyncResult.singletonError
  | some (n', fs') => if fs'.isEmpty then SyncResult.noColumn else SyncResult.ok n' fs'

/-- Database sanity of a synchronization state: record ids are pairwise
distinct and smaller than the next fresh id.  Both facts hold of any Odoo
table together with its id sequence. -/
def IdsOk (st : SyncState) : Prop :=
  (st.flds.map SqlField.id).Nodup ∧ ∀ f ∈ st.flds, f.id < st.nextId

/-- The shape a field collection has, relative to one manifest column,
after a successful reconciliation: either no field carries the column's
name and the column is not `x_`-prefixed, or exactly one field carries it
and its `sequence`/`sql_type` already equal the column's. -/
def ColReady (fs : List SqlField) (c : Column) : Prop :=
  (fs.filter (fun f => f.name == c.name) = [] ∧ c.name.take 2 ≠ "x_")
  ∨ (∃ f, fs.filter (fun f => f.name == c.name) = [f]
      ∧ f.sequence = c.num ∧ f.sql_type = c.ctype)

/-! ## `bi_sql_view.py`: `button_reset_to_sql_valid` -/

/-- A `bi.sql.view` record, as far as the reset transitions touch it.
`hasCron`/`cronActive` model `cron_id` and `cron_id.active`; `hasModel` and
`hasRule` model `model_id` and `rule_id`; `hasUi` stands for the six UI
artifacts; `dbViewExists` records whether the backing database view
currently exists. -/
structure ViewRec where
  state : String
  is_materialized : Bool
  hasCron : Bool
  cronActive : Bool
  hasModel : Bool
  hasRule : Bool
  hasUi : Bool
  dbViewExists : Bool
  deriving DecidableEq, Repr

/-- External effects performed by the reset buttons, in order. -/
inductive DbAction where
  | deleteUiArtifacts
  | dropView
  | deactivateCron
  | deleteRule
  | deleteModel
  deriving DecidableEq, Repr

/-- Model of `button_reset_to_model_valid` (bi_sql_view.py lines 282-290): only
`ui_valid` records are affected; their UI artifacts are unlinked and the
state becomes `model_valid`. -/
def button_reset_to_model_valid (r : ViewRec) : ViewRec × List DbAction :=
  if r.state = "ui_valid" then
    ({ r with hasUi := false, state := "model_valid" }, [DbAction.deleteUiArtifacts])
  else (r, [])

/-- Model of `button_reset_to_sql_valid` (bi_sql_view.py lines 292-303): first
cascade down from `ui_valid`, then for `model_valid` records: drop the
database view ONLY when `is_materialized` (the source guards `_drop_view`
with `if sql_view.is_materialized:`), deactivate (not delete) the cron,
unlink rule and model (`_drop_model_and_fields`), and set the state to
`sql_valid`. -/
def button_reset_to_sql_valid (r : ViewRec) : ViewRec × List DbAction :=
  let p := button_reset_to_model_valid r
  let r1 := p.1
  if r1.state = "model_valid" then
    let dropActs := if r1.is_materialized then [DbAction.dropView] else []
    let cronActs := if r1.hasCron then [DbAction.deactivateCron] else []
    let ruleActs := if r1.hasRule then [DbAction.deleteRule] else []
    let modelActs := if r1.hasModel then [DbAction.deleteModel] else []
    ({ r1 with
        dbViewExists := if r1.is_materialized then false else r1.dbViewExists
        cronActive := if r1.hasCron then false else r1.cronActive
        hasRule := false
        hasModel := false
        state := "sql_valid" },
      p.2 ++ dropActs ++ cronActs ++ ruleActs ++ modelActs)
  else (r1, p.2)

/-! ## `bi_sql_view.py`: the index/materialized invariant -/

/-- A `bi.sql.view` record as seen by the `_check_index_materialized`
constraint: its materialized flag and its field records. -/
structure VState where
  materialized : Bool
  vfields : List SqlField
  deriving DecidableEq, Repr

/-- Model of `_check_index_materialized` (bi_sql_view.py lines 160-166): the
constraint fails (raises `UserError`) exactly when the record is not
materialized and some field has `is_index` set. -/
def check_index_materialized (v : VState) : Bool :=
  !v.materialized && v.vfields.any (fun f => f.is_index)

/-- Modelled from the spec: the `bi.sql.view.field` model (file
`bi_sql_view_field.py` of module `bi_sql_editor`) is not under `src/`;
only its callers are.  The spec states the invariant directly —
"`is_materialized`: boolean; invariant — indexes may exist only when true"
and "`is_index` (materialized-only)" — so writing a field's `is_index`
flag re-runs the same materialized check on the owning view. -/
def field_index_guard (v : VState) : Bool :=
  check_index_materialized v

/-- The operations of the program that can touch the invariant:
writing `is_materialized` (guarded by the source constraint), writing a
field's `is_index` (guarded per the spec, see `field_index_guard`),
creating a field through the schema synchronization (`is_index` defaults
to `False`), and unlinking a field. -/
inductive ViewOp where
  | setMaterialized (b : Bool)
  | setIndex (fid : Nat) (b : Bool)
  | addField (fid : Nat) (name : String) (seq : Nat) (ty : String)
  | removeField (fid : Nat)
  deriving DecidableEq, Repr

/-- Apply one operation; `none` means the write is rejected (the
constraint raises and the transaction is rolled back, leaving the record
unchanged). -/
def applyViewOp (v : VState) : ViewOp → Option VState
  | ViewOp.setMaterialized b =>
      let v' : VState := { v with materialized := b }
      if check_index_materialized v' then none else some v'
  | ViewOp.setIndex fid b =>
      let v' : VState :=
        { v with vfields := v.vfields.map fun f =>
            if f.id = fid then { f with is_index := b } else f }
      if field_index_guard v' then none else some v'
  | ViewOp.addField fid name seq ty =>
      some { v with vfields := v.vfields ++ [⟨fid, name, seq, ty, false⟩] }
  | ViewOp.removeField fid =>
      some { v with vfields := v.vfields.filter (fun f => !(f.id == fid)) }

/-- Reachable `bi.sql.view` states: a view starts with no fields (fields
only appear through validation), with either materialized flag; further
states come from applying accepted operations. -/
inductive ReachableView : VState → Prop where
  | init (m : Bool) : ReachableView ⟨m, []⟩
  | step (v : VState) (op : ViewOp) (v' : VState) :
      ReachableView v → applyViewOp v op = some v' → ReachableView v'

/-! ## Helper lemmas about `_clean_query` -/

theorem cleanQueryLoop_eq_none_iff (l : List Char) :
    cleanQueryLoop l = none ↔ ∀ c ∈ l, c = ';' := by
  induction l with
  | nil => simp [cleanQueryLoop]
  | cons c rest ih =>
    by_cases hc : c = ';'
    · simp [cleanQueryLoop, hc, ih]
    · simp [cleanQueryLoop, hc]

theorem cleanQueryLoop_some_of_ne (l : List Char) (h : ∃ c ∈ l, c ≠ ';') :
    ∃ c rest, cleanQueryLoop l = some (c :: rest) ∧ c ≠ ';' := by
  induction l with
  | nil => simp at h
  | cons c rest ih =>
    by_cases hc : c = ';'
    · subst hc
      simp only [cleanQueryLoop, if_pos rfl]
      apply ih
      obtain ⟨d, hd, hne⟩ := h
      rcases List.mem_cons.mp hd with h1 | h1
      · exact absurd h1.symm (Ne.symm hne)
      · exact ⟨d, h1, hne⟩
    · exact ⟨c, rest, by simp [cleanQueryLoop, hc], hc⟩

/-- C10: `_clean_query` is partial — it raises `IndexError` (modelled as
`none`) exactly when the query, after stripping surrounding whitespace, is
empty or consists only of `;` characters; on every other input it
terminates normally with a result. -/
theorem clean_query_none_iff (q : String) :
    clean_query q = none ↔ ∀ c ∈ (pyStrip q).data, c = ';' := by
  have hstep : clean_query q = none ↔ cleanQueryLoop (pyStrip q).data.reverse = none := by
    unfold clean_query
    cases cleanQueryLoop (pyStrip q).data.reverse <;> simp
  rw [hstep, cleanQueryLoop_eq_none_iff]
  constructor <;> intro h c hc
  · exact h c (List.mem_reverse.mpr hc)
  · exact h c (List.mem_reverse.mp hc)

/-- C4 (counterexample): the query `";"` satisfies the claim's hypothesis
(after removal of trailing whitespace it ends in `;`), yet `_clean_query`
does not produce any query for it — the loop raises `IndexError`. -/
theorem clean_query_crashes_on_semicolon_only :
    (pyRstrip ";").data.getLast? = some ';' ∧ clean_query ";" = none := by
  decide

/-- C4 (amended): for every query that, after removal of trailing
whitespace, ends in one or more `;` and that, after stripping surrounding
whitespace, still contains some character other than `;`, `_clean_query`
produces a nonempty query whose last character is not `;`. -/
theorem clean_query_strips_trailing_semicolons (q : String)
    (_h1 : (pyRstrip q).data.getLast? = some ';')
    (h2 : ∃ c ∈ (pyStrip q).data, c ≠ ';') :
    ∃ r, clean_query q = some r ∧ r ≠ "" ∧ r.data.getLast? ≠ some ';' := by
  have h2' : ∃ c ∈ (pyStrip q).data.reverse, c ≠ ';' := by
    obtain ⟨c, hc, hne⟩ := h2
    exact ⟨c, List.mem_reverse.mpr hc, hne⟩
  obtain ⟨c, rest, hl, hc⟩ := cleanQueryLoop_some_of_ne _ h2'
  refine ⟨⟨(c :: rest).reverse⟩, ?_, ?_, ?_⟩
  · unfold clean_query
    rw [hl]
  · intro hcon
    have hdata : (c :: rest).reverse = [] := congrArg String.data hcon
    simp at hdata
  · have hlast : ((c :: rest).reverse).getLast? = some c := by
      rw [List.getLast?_reverse]
      rfl
    show ((c :: rest).reverse).getLast? ≠ some ';'
    rw [hlast]
    intro hcon
    exact hc (Option.some.inj hcon)

/-- C4 (witness): a concrete run of the amended statement. -/
theorem clean_query_strips_trailing_semicolons_witness :
    ∃ r, clean_query " SELECT 1;; " = some r ∧ r ≠ ""
      ∧ r.data.getLast? ≠ some ';' :=
  clean_query_strips_trailing_semicolons " SELECT 1;; " (by decide) (by decide)

/-! ## Theorems about `_execute_sql_request` -/

/-- C6: on a request in state `draft`, `_execute_sql_request` raises the
`UserError` "It is not allowed to execute a not checked request." for every
combination of query, mode, rollback and view-name arguments; the outcome
carries no executed statement and in the source the error is raised before
any statement is built or any cursor touched, so nothing is executed and no
record field is modified. -/
theorem execute_sql_request_draft_rejected (query mode : String) (rollback : Bool)
    (view_name copy_options : String) (avail : Bool) :
    execute_sql_request "draft" query mode rollback view_name copy_options avail
      = ExecOutcome.errNotChecked := rfl

/-- C1: evaluating `_execute_sql_request` at a non-draft request in `view`
(resp. `materialized_view`) mode shows the source swaps the two format
arguments: it executes `CREATE VIEW <query> AS (<view_name>);` instead of
the documented `CREATE VIEW <view_name> AS (<query>);`.  The rollback flag
is indeed forced to `false` in both modes. -/
theorem execute_sql_request_view_swaps_query_and_name :
    execute_sql_request "sql_valid" "SELECT 1" "view" true "my_view" "CSV" true
      = ExecOutcome.run "CREATE VIEW SELECT 1 AS (my_view);" false
    ∧ execute_sql_request "sql_valid" "SELECT 1" "materialized_view" true "my_view" "CSV" true
      = ExecOutcome.run "CREATE MATERIALIZED VIEW SELECT 1 AS (my_view);" false
    ∧ "CREATE VIEW SELECT 1 AS (my_view);" ≠ "CREATE VIEW my_view AS (SELECT 1);" := by
  decide

/-- C5 (counterexample): the mode `"ie"` is none of the five implemented
modes, yet `_execute_sql_request` does not raise the Unimplemented-mode
error: the dispatch `elif mode in "view"` is a Python substring test, so
`"ie"` is handled as a view-creation mode (and, the tuple test on line 206
not matching, its rollback argument is not forced to false either). -/
theorem execute_sql_request_substring_mode_not_rejected :
    ("ie" ≠ "fetchall" ∧ "ie" ≠ "fetchone" ∧ "ie" ≠ "stdout" ∧ "ie" ≠ "view"
      ∧ "ie" ≠ "materialized_view")
    ∧ execute_sql_request "sql_valid" "SELECT 1" "ie" true "v" "CSV" true
        = ExecOutcome.run "CREATE VIEW SELECT 1 AS (v);" true := by
  decide

/-- C5 (amended): on a non-draft request, `_execute_sql_request` raises the
fatal Unimplemented-mode `UserError` exactly for the modes that are neither
`fetchone`, `fetchall` nor `stdout`, and are not substrings of `"view"` or
of `"materialized_view"` (Python string membership is substring
containment); substring modes are instead treated as view-creation modes. -/
theorem execute_sql_request_unimplemented_iff (state query mode : String) (rollback : Bool)
    (view_name copy_options : String) (avail : Bool) (h : state ≠ "draft") :
    (execute_sql_request state query mode rollback view_name copy_options avail
        = ExecOutcome.errUnimplementedMode mode)
      ↔ (mode ≠ "fetchone" ∧ mode ≠ "fetchall" ∧ mode ≠ "stdout"
        ∧ isSubstringOf mode "view" = false ∧ isSubstringOf mode "materialized_view" = false) := by
  unfold execute_sql_request
  rw [if_neg h]
  by_cases h1 : mode = "fetchone" ∨ mode = "fetchall"
  · rcases h1 with h1 | h1 <;> subst h1 <;> simp
  · push_neg at h1
    by_cases h2 : mode = "stdout"
    · subst h2
      simp
    · by_cases h3 : isSubstringOf mode "view" = true
      · simp [h1.1, h1.2, h2, h3]
      · by_cases h4 : isSubstringOf mode "materialized_view" = true
        · cases avail <;> simp [h1.1, h1.2, h2, h3, h4]
        · rw [Bool.not_eq_true] at h3 h4
          simp [h1.1, h1.2, h2, h3, h4]

/-- C5 (witness): a concrete unknown mode is rejected. -/
theorem execute_sql_request_unimplemented_iff_witness :
    execute_sql_request "sql_valid" "SELECT 1" "bogus" true "v" "CSV" true
      = ExecOutcome.errUnimplementedMode "bogus" :=
  (execute_sql_request_unimplemented_iff "sql_valid" "SELECT 1" "bogus" true "v" "CSV" true
    (by decide)).mpr (by decide)

/-! ## Theorems about `button_reset_to_sql_valid` -/

/-- C2: evaluating the reset at a `model_valid` view with
`is_materialized = False` shows the source does NOT drop the backing
database view (the call to `_drop_view` is guarded by
`if sql_view.is_materialized:`), while it does deactivate (not delete) the
cron, delete rule and model, and set the state to `sql_valid`; with
`is_materialized = True` the view is dropped. -/
theorem reset_to_sql_valid_skips_drop_when_not_materialized :
    button_reset_to_sql_valid ⟨"model_valid", false, true, true, true, true, false, true⟩
      = (⟨"sql_valid", false, true, false, false, false, false, true⟩,
         [DbAction.deactivateCron, DbAction.deleteRule, DbAction.deleteModel])
    ∧ DbAction.dropView ∉ (button_reset_to_sql_valid
        ⟨"model_valid", false, true, true, true, true, false, true⟩).2
    ∧ (button_reset_to_sql_valid
        ⟨"model_valid", false, true, true, true, true, false, true⟩).1.dbViewExists = true
    ∧ DbAction.dropView ∈ (button_reset_to_sql_valid
        ⟨"model_valid", true, true, true, true, true, false, true⟩).2 := by
  decide

/-! ## Theorems about `_check_prohibited_words` -/

theorem wholeWordAt_iff (prev : Option Char) (w l : List Char) :
    wholeWordAt prev w l = true ↔
      ∃ post, l = w ++ post ∧ boundaryOk prev = true ∧ boundaryOk post.head? = true := by
  unfold wholeWordAt
  constructor
  · intro h
    rw [Bool.and_eq_true, Bool.and_eq_true] at h
    obtain ⟨⟨hp, hprev⟩, hpost⟩ := h
    obtain ⟨post, hpost'⟩ := List.isPrefixOf_iff_prefix.mp hp
    subst hpost'
    rw [List.drop_left] at hpost
    exact ⟨post, rfl, hprev, hpost⟩
  · rintro ⟨post, rfl, h1, h2⟩
    rw [Bool.and_eq_true, Bool.and_eq_true, List.drop_left]
    exact ⟨⟨List.isPrefixOf_iff_prefix.mpr (List.prefix_append w post), h1⟩, h2⟩

theorem getLast?_or_shift (c : Char) (pre : List Char) (prev : Option Char) :
    ((c :: pre).getLast?.or prev) = (pre.getLast?.or (some c)) := by
  cases pre with
  | nil => simp
  | cons p ps =>
    rw [List.getLast?_cons_cons]
    cases hx : (p :: ps).getLast? with
    | none => simp at hx
    | some x => simp [Option.or]

theorem searchWholeWord_iff (w : List Char) : ∀ (l : List Char) (prev : Option Char),
    searchWholeWord w prev l = true ↔
      ∃ pre post, l = pre ++ w ++ post
        ∧ boundaryOk (pre.getLast?.or prev) = true ∧ boundaryOk post.head? = true := by
  intro l
  induction l with
  | nil =>
    intro prev
    rw [searchWholeWord, wholeWordAt_iff]
    constructor
    · rintro ⟨post, heq, h1, h2⟩
      exact ⟨[], post, by simpa using heq, by simpa using h1, h2⟩
    · rintro ⟨pre, post, heq, h1, h2⟩
      have hpre : pre = [] := by
        cases pre with
        | nil => rfl
        | cons p ps => simp at heq
      subst hpre
      exact ⟨post, by simpa using heq, by simpa using h1, h2⟩
  | cons c rest ih =>
    intro prev
    rw [searchWholeWord, Bool.or_eq_true, wholeWordAt_iff, ih (some c)]
    constructor
    · rintro (⟨post, heq, h1, h2⟩ | ⟨pre, post, heq, h1, h2⟩)
      · exact ⟨[], post, by simpa using heq, by simpa using h1, h2⟩
      · refine ⟨c :: pre, post, by simp [heq], ?_, h2⟩
        rw [getLast?_or_shift]
        exact h1
    · rintro ⟨pre, post, heq, h1, h2⟩
      cases pre with
      | nil =>
        left
        exact ⟨post, by simpa using heq, by simpa using h1, h2⟩
      | cons p pre' =>
        right
        rw [List.cons_append, List.cons_append] at heq
        have hcp : c = p := (List.cons.injEq _ _ _ _ ▸ heq).1
        have hrest : rest = pre' ++ w ++ post := (List.cons.injEq _ _ _ _ ▸ heq).2
        subst hcp
        refine ⟨pre', post, hrest, ?_, h2⟩
        rw [getLast?_or_shift] at h1
        exact h1

theorem containsWholeWord_iff (text w : String) :
    containsWholeWord text w = true ↔ SpecWholeWord text w := by
  unfold containsWholeWord SpecWholeWord
  rw [searchWholeWord_iff]
  simp only [Option.or_none]

/-- C3: `_check_prohibited_words` raises (returning the offending word)
if and only if the lowered query contains one of the nine blacklisted
words as a whole word — a split `pre ++ word ++ post` whose neighbouring
characters, when present, are not word characters; the word returned (the
one named by the `UserError`) is a blacklisted word with such an
occurrence.  Concretely, `updated_at` does not trigger the check while
`DROP TABLE foo` raises naming `drop`. -/
theorem check_prohibited_words_correct (q : String) :
    ((check_prohibited_words q).isSome = true
       ↔ ∃ w ∈ PROHIBITED_WORDS, SpecWholeWord (pyLower q) w)
    ∧ (∀ w, check_prohibited_words q = some w
       → w ∈ PROHIBITED_WORDS ∧ SpecWholeWord (pyLower q) w)
    ∧ check_prohibited_words "SELECT updated_at FROM x" = none
    ∧ check_prohibited_words "DROP TABLE foo" = some "drop" := by
  refine ⟨?_, ?_, by decide, by decide⟩
  · simp only [check_prohibited_words, List.find?_isSome, containsWholeWord_iff]
  · intro w hw
    unfold check_prohibited_words at hw
    exact ⟨List.mem_of_find?_eq_some hw,
      (containsWholeWord_iff _ _).mp (List.find?_some hw)⟩

/-! ## Helper lemmas for the schema synchronization -/

theorem filter_swap {α : Type} (p q : α → Bool) (l : List α) :
    (l.filter p).filter q = (l.filter q).filter p := by
  rw [List.filter_filter, List.filter_filter]
  exact List.filter_congr (fun a _ => Bool.and_comm _ _)

theorem filter_map_untouched {α : Type} (u : α → α) (p : α → Bool) (l : List α)
    (h1 : ∀ a ∈ l, p a = true → u a = a) (h2 : ∀ a ∈ l, p (u a) = p a) :
    (l.map u).filter p = l.filter p := by
  induction l with
  | nil => rfl
  | cons a as ih =>
    have hh1 : ∀ x ∈ as, p x = true → u x = x := fun x hx => h1 x (List.mem_cons_of_mem a hx)
    have hh2 : ∀ x ∈ as, p (u x) = p x := fun x hx => h2 x (List.mem_cons_of_mem a hx)
    rw [List.map_cons, List.filter_cons, List.filter_cons, h2 a (List.mem_cons_self a as)]
    cases hp : p a with
    | true =>
      rw [if_pos rfl, if_pos rfl, h1 a (List.mem_cons_self a as) hp, ih hh1 hh2]
    | false =>
      rw [if_neg (by simp), if_neg (by simp), ih hh1 hh2]

theorem filter_map_single {α : Type} (u : α → α) (p : α → Bool) (l : List α) (a : α)
    (hl : l.filter p = [a]) (h2 : ∀ x ∈ l, p (u x) = p x)
    (h3 : ∀ x ∈ l, p x = true → x = a) :
    (l.map u).filter p = [u a] := by
  induction l with
  | nil => simp at hl
  | cons x xs ih =>
    have hh2 : ∀ y ∈ xs, p (u y) = p y := fun y hy => h2 y (List.mem_cons_of_mem x hy)
    have hh3 : ∀ y ∈ xs, p y = true → y = a := fun y hy => h3 y (List.mem_cons_of_mem x hy)
    rw [List.filter_cons] at hl
    rw [List.map_cons, List.filter_cons, h2 x (List.mem_cons_self x xs)]
    cases hp : p x with
    | true =>
      rw [hp, if_pos rfl] at hl
      rw [if_pos rfl]
      have hx : x = a := (List.cons.injEq _ _ _ _ ▸ hl).1
      have hxs : xs.filter p = [] := (List.cons.injEq _ _ _ _ ▸ hl).2
      have h1' : ∀ y ∈ xs, p y = true → u y = y := by
        intro y hy hpy
        exfalso
        have hymem : y ∈ xs.filter p := List.mem_filter.mpr ⟨hy, hpy⟩
        rw [hxs] at hymem
        exact List.not_mem_nil y hymem
      rw [hx, filter_map_untouched u p xs h1' hh2, hxs]
    | false =>
      rw [hp, if_neg (by simp)] at hl
      rw [if_neg (by simp)]
      exact ih hl hh2 hh3

theorem writeField_map_id (c : Column) (fid : Nat) (fs : List SqlField) :
    (writeField c fid fs).map SqlField.id = fs.map SqlField.id := by
  unfold writeField
  rw [List.map_map]
  exact List.map_congr_left (fun a _ => by
    by_cases h : a.id = fid <;> simp [Function.comp, h])

theorem syncLoop_nil (st : SyncState) : syncLoop st [] = some st := rfl

theorem syncLoop_cons (st : SyncState) (c : Column) (cs : List Column) :
    syncLoop st (c :: cs) = match syncStep st c with
      | none => none
      | some st' => syncLoop st' cs := rfl

theorem syncLoop_append (st : SyncState) (l₁ l₂ : List Column) :
    syncLoop st (l₁ ++ l₂) = match syncLoop st l₁ with
      | none => none
      | some st' => syncLoop st' l₂ := by
  induction l₁ generalizing st with
  | nil => rfl
  | cons c cs ih =>
    rw [List.cons_append, syncLoop_cons, syncLoop_cons]
    cases syncStep st c with
    | none => rfl
    | some st' => exact ih st'

/-- Every successful `syncStep` has one of three shapes: creation of a
fresh `x_`-prefixed field, a silent skip, or an in-place write of the
unique field matched by name. -/
theorem syncStep_cases (st : SyncState) (c : Column) (st' : SyncState)
    (h : syncStep st c = some st') :
    (st.flds.filter (fun f => f.name == c.name) = [] ∧ c.name.take 2 = "x_"
      ∧ st' = ⟨st.nextId + 1, st.flds ++ [newField st.nextId c], st.kept ++ [st.nextId]⟩)
    ∨ (st.flds.filter (fun f => f.name == c.name) = [] ∧ c.name.take 2 ≠ "x_" ∧ st' = st)
    ∨ (∃ f, st.flds.filter (fun f => f.name == c.name) = [f]
      ∧ st' = ⟨st.nextId, writeField c f.id st.flds, st.kept ++ [f.id]⟩) := by
  unfold syncStep at h
  split at h
  next hfil =>
    split at h
    next hx => exact Or.inl ⟨hfil, hx, (Option.some.inj h).symm⟩
    next hx => exact Or.inr (Or.inl ⟨hfil, hx, (Option.some.inj h).symm⟩)
  next f hfil => exact Or.inr (Or.inr ⟨f, hfil, (Option.some.inj h).symm⟩)
  next => exact Option.noConfusion h

theorem syncStep_survive (st st' : SyncState) (c : Column) (h : syncStep st c = some st') :
    ∀ f ∈ st.flds, ∃ f1 ∈ st'.flds, f1.id = f.id ∧ f1.name = f.name := by
  intro f hf
  rcases syncStep_cases st c st' h with ⟨_, _, rfl⟩ | ⟨_, _, rfl⟩ | ⟨g, hfil, rfl⟩
  · exact ⟨f, List.mem_append.mpr (Or.inl hf), rfl, rfl⟩
  · exact ⟨f, hf, rfl, rfl⟩
  · show ∃ f1 ∈ writeField c g.id st.flds, f1.id = f.id ∧ f1.name = f.name
    unfold writeField
    refine ⟨_, List.mem_map_of_mem _ hf, ?_, ?_⟩
    · by_cases hid : f.id = g.id <;> simp [hid]
    · by_cases hid : f.id = g.id <;> simp [hid]

theorem syncStep_kept (st st' : SyncState) (c : Column) (h : syncStep st c = some st') :
    ∃ K, st'.kept = st.kept ++ K
      ∧ ∀ k ∈ K, ∃ f ∈ st'.flds, f.id = k ∧ f.name = c.name := by
  rcases syncStep_cases st c st' h with ⟨_, _, rfl⟩ | ⟨_, _, rfl⟩ | ⟨g, hfil, rfl⟩
  · refine ⟨[st.nextId], rfl, ?_⟩
    intro k hk
    rw [List.mem_singleton] at hk
    subst hk
    exact ⟨newField st.nextId c,
      List.mem_append.mpr (Or.inr (List.mem_singleton.mpr rfl)), rfl, rfl⟩
  · exact ⟨[], by simp, by simp⟩
  · refine ⟨[g.id], rfl, ?_⟩
    intro k hk
    rw [List.mem_singleton] at hk
    subst hk
    have hgfil : g ∈ st.flds.filter (fun f => f.name == c.name) := by
      rw [hfil]
      exact List.mem_singleton.mpr rfl
    have hgmem : g ∈ st.flds := List.mem_of_mem_filter hgfil
    have hgname : g.name = c.name := by
      have := (List.mem_filter.mp hgfil).2
      exact beq_iff_eq.mp this
    show ∃ f ∈ writeField c g.id st.flds, f.id = g.id ∧ f.name = c.name
    unfold writeField
    refine ⟨_, List.mem_map_of_mem _ hgmem, ?_, ?_⟩
    · simp
    · simp [hgname]

theorem syncStep_IdsOk (st st' : SyncState) (c : Column) (hok : IdsOk st)
    (h : syncStep st c = some st') : IdsOk st' ∧ st.nextId ≤ st'.nextId := by
  rcases syncStep_cases st c st' h with ⟨_, _, rfl⟩ | ⟨_, _, rfl⟩ | ⟨g, hfil, rfl⟩
  · refine ⟨⟨?_, ?_⟩, Nat.le_succ _⟩
    · show ((st.flds ++ [newField st.nextId c]).map SqlField.id).Nodup
      rw [List.map_append, List.nodup_append]
      refine ⟨hok.1, by simp, ?_⟩
      rw [List.map_singleton, List.disjoint_singleton]
      intro hmem
      obtain ⟨f, hf, hfid⟩ := List.mem_map.mp hmem
      exact absurd hfid (Nat.ne_of_lt (hok.2 f hf))
    · intro f hf
      rcases List.mem_append.mp hf with hf | hf
      · exact Nat.lt_trans (hok.2 f hf) (Nat.lt_succ_self _)
      · rw [List.mem_singleton] at hf
        subst hf
        exact Nat.lt_succ_self _
  · exact ⟨hok, Nat.le_refl _⟩
  · refine ⟨⟨?_, ?_⟩, Nat.le_refl _⟩
    · show ((writeField c g.id st.flds).map SqlField.id).Nodup
      rw [writeField_map_id]
      exact hok.1
    · intro f hf
      show f.id < st.nextId
      obtain ⟨a, ha, rfl⟩ := List.mem_map.mp hf
      have : (if a.id = g.id
          then { a with sequence := c.num, sql_type := c.ctype } else a).id = a.id := by
        by_cases hid : a.id = g.id <;> simp [hid]
      rw [this]
      exact hok.2 a ha

theorem syncStep_filter_other (st st' : SyncState) (c : Column) (nm : String)
    (hne : c.name ≠ nm) (hok : IdsOk st) (h : syncStep st c = some st') :
    st'.flds.filter (fun f => f.name == nm) = st.flds.filter (fun f => f.name == nm) := by
  rcases syncStep_cases st c st' h with ⟨hfil, hx, rfl⟩ | ⟨_, _, rfl⟩ | ⟨g, hfil, rfl⟩
  · show (st.flds ++ [newField st.nextId c]).filter _ = _
    rw [List.filter_append]
    have hnew : [newField st.nextId c].filter (fun f => f.name == nm) = [] := by
      simp [newField, hne]
    rw [hnew, List.append_nil]
  · rfl
  · have hgfil : g ∈ st.flds.filter (fun f => f.name == c.name) := by
      rw [hfil]
      exact List.mem_singleton.mpr rfl
    have hgmem : g ∈ st.flds := List.mem_of_mem_filter hgfil
    have hgname : g.name = c.name := beq_iff_eq.mp (List.mem_filter.mp hgfil).2
    show (writeField c g.id st.flds).filter _ = _
    unfold writeField
    apply filter_map_untouched
    · intro a ha hpa
      have haname : a.name = nm := beq_iff_eq.mp hpa
      have hag : ¬(a.id = g.id) := by
        intro he
        have hae : a = g := List.inj_on_of_nodup_map hok.1 ha hgmem he
        rw [hae, hgname] at haname
        exact hne haname
      simp [hag]
    · intro a _
      by_cases hid : a.id = g.id <;> simp [hid]

theorem syncLoop_IdsOk (cs : List Column) : ∀ (st st1 : SyncState), IdsOk st →
    syncLoop st cs = some st1 → IdsOk st1 ∧ st.nextId ≤ st1.nextId := by
  induction cs with
  | nil =>
    intro st st1 hok h
    obtain rfl := Option.some.inj h
    exact ⟨hok, Nat.le_refl _⟩
  | cons c cs ih =>
    intro st st1 hok h
    rw [syncLoop_cons] at h
    cases hstep : syncStep st c with
    | none => rw [hstep] at h; exact Option.noConfusion h
    | some st' =>
      rw [hstep] at h
      obtain ⟨hok', hle⟩ := syncStep_IdsOk st st' c hok hstep
      obtain ⟨hok1, hle1⟩ := ih st' st1 hok' h
      exact ⟨hok1, Nat.le_trans hle hle1⟩

theorem syncLoop_survive (cs : List Column) : ∀ (st st1 : SyncState),
    syncLoop st cs = some st1 →
    ∀ f ∈ st.flds, ∃ f1 ∈ st1.flds, f1.id = f.id ∧ f1.name = f.name := by
  induction cs with
  | nil =>
    intro st st1 h f hf
    obtain rfl := Option.some.inj h
    exact ⟨f, hf, rfl, rfl⟩
  | cons c cs ih =>
    intro st st1 h f hf
    rw [syncLoop_cons] at h
    cases hstep : syncStep st c with
    | none => rw [hstep] at h; exact Option.noConfusion h
    | some st' =>
      rw [hstep] at h
      obtain ⟨f1, hf1, hid, hname⟩ := syncStep_survive st st' c hstep f hf
      obtain ⟨f2, hf2, hid2, hname2⟩ := ih st' st1 h f1 hf1
      exact ⟨f2, hf2, hid2.trans hid, hname2.trans hname⟩

theorem syncLoop_kept (cs : List Column) : ∀ (st st1 : SyncState),
    syncLoop st cs = some st1 →
    ∃ K, st1.kept = st.kept ++ K
      ∧ ∀ k ∈ K, ∃ f ∈ st1.flds, f.id = k ∧ ∃ c ∈ cs, f.name = c.name := by
  induction cs with
  | nil =>
    intro st st1 h
    obtain rfl := Option.some.inj h
    exact ⟨[], by simp, by simp⟩
  | cons c cs ih =>
    intro st st1 h
    rw [syncLoop_cons] at h
    cases hstep : syncStep st c with
    | none => rw [hstep] at h; exact Option.noConfusion h
    | some st' =>
      rw [hstep] at h
      obtain ⟨K0, hk0, hprop0⟩ := syncStep_kept st st' c hstep
      obtain ⟨K1, hk1, hprop1⟩ := ih st' st1 h
      refine ⟨K0 ++ K1, by rw [hk1, hk0, List.append_assoc], ?_⟩
      intro k hk
      rcases List.mem_append.mp hk with hk | hk
      · obtain ⟨f, hf, hfid, hfname⟩ := hprop0 k hk
        obtain ⟨f1, hf1, hid1, hname1⟩ := syncLoop_survive cs st' st1 h f hf
        exact ⟨f1, hf1, hid1.trans hfid, c, List.mem_cons_self c cs, hname1.trans hfname⟩
      · obtain ⟨f, hf, hfid, c', hc', hfname⟩ := hprop1 k hk
        exact ⟨f, hf, hfid, c', List.mem_cons_of_mem c hc', hfname⟩

theorem syncLoop_filter_other (cs : List Column) : ∀ (st st1 : SyncState) (nm : String),
    (∀ c ∈ cs, c.name ≠ nm) → IdsOk st → syncLoop st cs = some st1 →
    st1.flds.filter (fun f => f.name == nm) = st.flds.filter (fun f => f.name == nm) := by
  induction cs with
  | nil =>
    intro st st1 nm _ _ h
    obtain rfl := Option.some.inj h
    rfl
  | cons c cs ih =>
    intro st st1 nm hne hok h
    rw [syncLoop_cons] at h
    cases hstep : syncStep st c with
    | none => rw [hstep] at h; exact Option.noConfusion h
    | some st' =>
      rw [hstep] at h
      have hok' := (syncStep_IdsOk st st' c hok hstep).1
      have h1 := ih st' st1 nm (fun x hx => hne x (List.mem_cons_of_mem c hx)) hok' h
      have h2 := syncStep_filter_other st st' c nm (hne c (List.mem_cons_self c cs)) hok hstep
      rw [h1, h2]

/-- A `kept` id stays present: `syncLoop` only ever appends to `kept`. -/
theorem syncLoop_kept_mono (cs : List Column) (st st1 : SyncState)
    (h : syncLoop st cs = some st1) : ∀ k ∈ st.kept, k ∈ st1.kept := by
  intro k hk
  obtain ⟨K, hK, _⟩ := syncLoop_kept cs st st1 h
  rw [hK]
  exact List.mem_append.mpr (Or.inl hk)

/-- After a successful reconciliation run (with distinct manifest column
names and database-sane field ids), the surviving field collection is
`ColReady` for every manifest column, every surviving field is named after
some column, and its ids are still distinct. -/
theorem syncFields_ready (n : Nat) (fs : List SqlField) (cols : List Column)
    (hcols : (cols.map Column.name).Nodup)
    (hids : (fs.map SqlField.id).Nodup)
    (hfresh : ∀ f ∈ fs, f.id < n)
    (n' : Nat) (fs' : List SqlField)
    (h : syncFields n fs cols = some (n', fs')) :
    (∀ c ∈ cols, ColReady fs' c)
    ∧ (∀ f ∈ fs', ∃ c ∈ cols, f.name = c.name)
    ∧ (fs'.map SqlField.id).Nodup := by
  unfold syncFields at h
  cases hloop : syncLoop ⟨n, fs, []⟩ cols with
  | none => rw [hloop] at h; exact Option.noConfusion h
  | some st1 =>
    rw [hloop] at h
    have hp := Option.some.inj h
    rw [Prod.mk.injEq] at hp
    obtain ⟨hp1, hp2⟩ := hp
    subst hp1
    subst hp2
    have hok0 : IdsOk ⟨n, fs, []⟩ := ⟨hids, hfresh⟩
    have hok1 := (syncLoop_IdsOk cols _ _ hok0 hloop).1
    refine ⟨?_, ?_, ?_⟩
    · -- ColReady for every column
      intro c hc
      obtain ⟨l₁, l₂, rfl⟩ := List.append_of_mem hc
      have hnames : ((l₁ ++ c :: l₂).map Column.name).Nodup := hcols
      rw [List.map_append, List.map_cons, List.nodup_append] at hnames
      obtain ⟨_, hnd2, _⟩ := hnames
      have hcnotl2 : ∀ c' ∈ l₂, c'.name ≠ c.name := by
        intro c' hc' he
        exact (List.nodup_cons.mp hnd2).1 (List.mem_map.mpr ⟨c', hc', he⟩)
      rw [syncLoop_append] at hloop
      cases hl1 : syncLoop ⟨n, fs, []⟩ l₁ with
      | none => rw [hl1] at hloop; exact Option.noConfusion hloop
      | some sta =>
        rw [hl1] at hloop
        have hloop2 : syncLoop sta (c :: l₂) = some st1 := hloop
        rw [syncLoop_cons] at hloop2
        cases hstep : syncStep sta c with
        | none => rw [hstep] at hloop2; exact Option.noConfusion hloop2
        | some stb =>
          rw [hstep] at hloop2
          have hloop3 : syncLoop stb l₂ = some st1 := hloop2
          have hoka := (syncLoop_IdsOk l₁ _ _ hok0 hl1).1
          have hokb := (syncStep_IdsOk sta stb c hoka hstep).1
          have hfo := syncLoop_filter_other l₂ stb st1 c.name hcnotl2 hokb hloop3
          have hkmono := syncLoop_kept_mono l₂ stb st1 hloop3
          unfold ColReady
          rcases syncStep_cases sta c stb hstep with
            ⟨hfil, hx, hstb⟩ | ⟨hfil, hx, hstb⟩ | ⟨g, hfil, hstb⟩
          · -- creation
            subst hstb
            have hfb : (sta.flds ++ [newField sta.nextId c]).filter
                (fun f => f.name == c.name) = [newField sta.nextId c] := by
              rw [List.filter_append, hfil]
              simp [newField]
            have hst1 : st1.flds.filter (fun f => f.name == c.name)
                = [newField sta.nextId c] := by
              rw [hfo]; exact hfb
            right
            refine ⟨newField sta.nextId c, ?_, rfl, rfl⟩
            show (keptFields st1).filter (fun f => f.name == c.name) = [newField sta.nextId c]
            unfold keptFields
            rw [filter_swap, hst1]
            have hid_in : sta.nextId ∈ st1.kept := by
              apply hkmono
              show sta.nextId ∈ sta.kept ++ [sta.nextId]
              exact List.mem_append.mpr (Or.inr (List.mem_singleton.mpr rfl))
            have hcont : st1.kept.contains (newField sta.nextId c).id = true :=
              List.elem_iff.mpr hid_in
            simp [List.filter_cons, hcont]
            exact hid_in
          · -- skip
            subst hstb
            left
            refine ⟨?_, hx⟩
            show (keptFields st1).filter (fun f => f.name == c.name) = []
            unfold keptFields
            rw [filter_swap, hfo, hfil]
            rfl
          · -- in-place write
            subst hstb
            have hgfil : g ∈ sta.flds.filter (fun f => f.name == c.name) := by
              rw [hfil]; exact List.mem_singleton.mpr rfl
            have hfb : (writeField c g.id sta.flds).filter (fun f => f.name == c.name)
                = [{ g with sequence := c.num, sql_type := c.ctype }] := by
              unfold writeField
              have hsingle := filter_map_single
                (fun x => if x.id = g.id
                  then { x with sequence := c.num, sql_type := c.ctype } else x)
                (fun f => f.name == c.name) sta.flds g hfil
                (fun x _ => by by_cases hid : x.id = g.id <;> simp [hid])
                (fun x hx2 hpx => by
                  have : x ∈ sta.flds.filter (fun f => f.name == c.name) :=
                    List.mem_filter.mpr ⟨hx2, hpx⟩
                  rw [hfil] at this
                  exact List.mem_singleton.mp this)
              rw [hsingle]
              simp
            have hst1 : st1.flds.filter (fun f => f.name == c.name)
                = [{ g with sequence := c.num, sql_type := c.ctype }] := by
              rw [hfo]; exact hfb
            right
            refine ⟨{ g with sequence := c.num, sql_type := c.ctype }, ?_, rfl, rfl⟩
            show (keptFields st1).filter (fun f => f.name == c.name)
              = [{ g with sequence := c.num, sql_type := c.ctype }]
            unfold keptFields
            rw [filter_swap, hst1]
            have hid_in : g.id ∈ st1.kept := by
              apply hkmono
              show g.id ∈ sta.kept ++ [g.id]
              exact List.mem_append.mpr (Or.inr (List.mem_singleton.mpr rfl))
            have hcont : st1.kept.contains
                ({ g with sequence := c.num, sql_type := c.ctype } : SqlField).id = true :=
              List.elem_iff.mpr hid_in
            simp [List.filter_cons, hcont]
            exact hid_in
    · -- coverage: every surviving field is named after some column
      intro f hf
      have hfm := List.mem_filter.mp hf
      have hfk : f.id ∈ st1.kept := List.elem_iff.mp hfm.2
      obtain ⟨K, hK, hKprop⟩ := syncLoop_kept cols _ _ hloop
      rw [hK] at hfk
      have hfk' : f.id ∈ K := by simpa using hfk
      obtain ⟨g, hg, hgid, c, hc, hgname⟩ := hKprop f.id hfk'
      have hfg : f = g := List.inj_on_of_nodup_map hok1.1 hfm.1 hg (by rw [hgid])
      exact ⟨c, hc, by rw [hfg, hgname]⟩
    · -- ids of the surviving fields are still distinct
      exact List.Nodup.sublist
        (List.Sublist.map SqlField.id (List.filter_sublist st1.flds)) hok1.1

/-- Running the loop again over a `ColReady` collection changes nothing:
the state's fields are untouched and only the matched ids are re-collected. -/
theorem syncLoop_second_run (fs' : List SqlField) (n' : Nat)
    (hids : (fs'.map SqlField.id).Nodup) :
    ∀ (cols : List Column) (K₀ : List Nat), (∀ c ∈ cols, ColReady fs' c) →
    ∃ K₁, syncLoop ⟨n', fs', K₀⟩ cols = some ⟨n', fs', K₀ ++ K₁⟩
      ∧ ∀ f ∈ fs', ∀ c ∈ cols, f.name = c.name → f.id ∈ K₁ := by
  intro cols
  induction cols with
  | nil =>
    intro K₀ _
    refine ⟨[], ?_, by simp⟩
    rw [List.append_nil]
    exact syncLoop_nil _
  | cons c cs ih =>
    intro K₀ hready
    have hc := hready c (List.mem_cons_self c cs)
    have htail : ∀ c' ∈ cs, ColReady fs' c' :=
      fun c' hc' => hready c' (List.mem_cons_of_mem c hc')
    unfold ColReady at hc
    rcases hc with ⟨hfil, htake⟩ | ⟨f, hfil, hseq, hty⟩
    · have hstep : syncStep ⟨n', fs', K₀⟩ c = some ⟨n', fs', K₀⟩ := by
        unfold syncStep
        simp only [hfil]
        rw [if_neg htake]
      obtain ⟨K₁, hloop, hK⟩ := ih K₀ htail
      refine ⟨K₁, ?_, ?_⟩
      · rw [syncLoop_cons, hstep]
        exact hloop
      · intro g hg c' hc' hname
        rcases List.mem_cons.mp hc' with rfl | hc'
        · exfalso
          have hmem : g ∈ fs'.filter (fun x => x.name == c'.name) :=
            List.mem_filter.mpr ⟨hg, beq_iff_eq.mpr hname⟩
          rw [hfil] at hmem
          exact List.not_mem_nil g hmem
        · exact hK g hg c' hc' hname
    · have hf_in_fil : f ∈ fs'.filter (fun x => x.name == c.name) := by
        rw [hfil]
        exact List.mem_singleton.mpr rfl
      have hfmem : f ∈ fs' := List.mem_of_mem_filter hf_in_fil
      have hwrite : writeField c f.id fs' = fs' := by
        unfold writeField
        have hpt : ∀ g ∈ fs', (if g.id = f.id
            then { g with sequence := c.num, sql_type := c.ctype } else g) = g := by
          intro g hg
          by_cases hid : g.id = f.id
          · have hgf : g = f := List.inj_on_of_nodup_map hids hg hfmem hid
            subst hgf
            rw [if_pos rfl, ← hseq, ← hty]
          · rw [if_neg hid]
        exact (List.map_congr_left hpt).trans (List.map_id fs')
      have hstep : syncStep ⟨n', fs', K₀⟩ c = some ⟨n', fs', K₀ ++ [f.id]⟩ := by
        unfold syncStep
        simp only [hfil]
        rw [hwrite]
      obtain ⟨K₁, hloop, hK⟩ := ih (K₀ ++ [f.id]) htail
      refine ⟨f.id :: K₁, ?_, ?_⟩
      · rw [syncLoop_cons, hstep]
        have hKeq : K₀ ++ f.id :: K₁ = (K₀ ++ [f.id]) ++ K₁ := by
          rw [List.append_assoc]
          rfl
        rw [hKeq]
        exact hloop
      · intro g hg c' hc' hname
        rcases List.mem_cons.mp hc' with rfl | hc'
        · have hmem : g ∈ fs'.filter (fun x => x.name == c'.name) :=
            List.mem_filter.mpr ⟨hg, beq_iff_eq.mpr hname⟩
          rw [hfil] at hmem
          rw [List.mem_singleton.mp hmem]
          exact List.mem_cons_self f.id K₁
        · exact List.mem_cons_of_mem _ (hK g hg c' hc' hname)

/-- C8: the schema synchronization of `_check_execution` is idempotent.
Hypotheses: the manifest column names are pairwise distinct (guaranteed by
PostgreSQL — a view cannot have two columns of the same name), and the
stored field records have database-sane ids (pairwise distinct, below the
next fresh id).  If the first run succeeds and produces the field list
`fs'` and the second run re-uses the same manifest, the second run
produces exactly the same result: no field is created (the fresh-id
counter does not move) or deleted, and every matched field is overwritten
with the `sequence` and `sql_type` values it already holds. -/
theorem sync_idempotent (n : Nat) (fs : List SqlField) (cols : List Column)
    (hcols : (cols.map Column.name).Nodup)
    (hids : (fs.map SqlField.id).Nodup)
    (hfresh : ∀ f ∈ fs, f.id < n)
    (n' : Nat) (fs' : List SqlField)
    (h1 : syncFields n fs cols = some (n', fs')) :
    syncFields n' fs' cols = some (n', fs') := by
  obtain ⟨hready, hcover, hids'⟩ := syncFields_ready n fs cols hcols hids hfresh n' fs' h1
  obtain ⟨K₁, hloop, hK⟩ := syncLoop_second_run fs' n' hids' cols [] hready
  unfold syncFields
  rw [hloop]
  show some (n', keptFields ⟨n', fs', [] ++ K₁⟩) = some (n', fs')
  have hkf : keptFields ⟨n', fs', [] ++ K₁⟩ = fs' := by
    unfold keptFields
    apply List.filter_eq_self.mpr
    intro f hf
    apply List.elem_iff.mpr
    show f.id ∈ [] ++ K₁
    rw [List.nil_append]
    obtain ⟨c, hc, hname⟩ := hcover f hf
    exact hK f hf c hc hname
  rw [hkf]

/-- C8 (witness): a concrete idempotent run — one `x_`-prefixed column,
starting from no fields. -/
theorem sync_idempotent_witness :
    syncFields 2 [⟨1, "x_a", 1, "integer", false⟩] [⟨1, "x_a", "integer"⟩]
      = some (2, [⟨1, "x_a", 1, "integer", false⟩]) :=
  sync_idempotent 1 [] [⟨1, "x_a", "integer"⟩] (by decide) (by decide) (by decide)
    2 [⟨1, "x_a", 1, "integer", false⟩] (by decide)

/-- C7: during the validation probe, a manifest column matching no
existing field yields a new `bi.sql.view.field` exactly when its name
starts with the reserved prefix `x_` (otherwise the step leaves the state
untouched); consequently the probe of `SELECT 1 AS a` — whose single
column `a` lacks the prefix — ends with an empty field collection, and
`_check_execution` raises the fatal `No Column was found` error. -/
theorem check_execution_creates_iff_prefixed (st : SyncState) (c : Column)
    (h : ∀ f ∈ st.flds, f.name ≠ c.name) :
    (if c.name.take 2 = "x_"
      then syncStep st c
        = some ⟨st.nextId + 1, st.flds ++ [newField st.nextId c], st.kept ++ [st.nextId]⟩
      else syncStep st c = some st)
    ∧ check_execution 1 [] [⟨1, "a", "integer"⟩] = SyncResult.noColumn := by
  constructor
  · have hfil : st.flds.filter (fun f => f.name == c.name) = [] := by
      apply List.filter_eq_nil_iff.mpr
      intro f hf
      simp only [beq_iff_eq]
      exact h f hf
    by_cases hx : c.name.take 2 = "x_"
    · rw [if_pos hx]
      unfold syncStep
      simp only [hfil]
      rw [if_pos hx]
    · rw [if_neg hx]
      unfold syncStep
      simp only [hfil]
      rw [if_neg hx]
  · decide

/-- C7 (witness): a concrete creation for an `x_`-prefixed column. -/
theorem check_execution_creates_iff_prefixed_witness :
    syncStep ⟨5, [], []⟩ ⟨1, "x_a", "integer"⟩
      = some ⟨6, [newField 5 ⟨1, "x_a", "integer"⟩], [5]⟩
    ∧ check_execution 1 [] [⟨1, "a", "integer"⟩] = SyncResult.noColumn := by
  have h := check_execution_creates_iff_prefixed ⟨5, [], []⟩ ⟨1, "x_a", "integer"⟩
    (by intro f hf; exact absurd hf (List.not_mem_nil f))
  have h1 := h.1
  rw [if_pos (by decide)] at h1
  exact ⟨h1, h.2⟩

/-! ## Theorems about the index/materialized invariant -/

theorem applyViewOp_setMaterialized (v : VState) (b : Bool) :
    applyViewOp v (ViewOp.setMaterialized b)
      = (if check_index_materialized { v with materialized := b } then none
         else some { v with materialized := b }) := rfl

theorem applyViewOp_setIndex (v : VState) (fid : Nat) (b : Bool) :
    applyViewOp v (ViewOp.setIndex fid b)
      = (if field_index_guard { v with vfields := v.vfields.map fun f =>
            if f.id = fid then { f with is_index := b } else f } then none
         else some { v with vfields := v.vfields.map fun f =>
            if f.id = fid then { f with is_index := b } else f }) := rfl

theorem applyViewOp_addField (v : VState) (fid : Nat) (nm : String) (seq : Nat) (ty : String) :
    applyViewOp v (ViewOp.addField fid nm seq ty)
      = some { v with vfields := v.vfields ++ [⟨fid, nm, seq, ty, false⟩] } := rfl

theorem applyViewOp_removeField (v : VState) (fid : Nat) :
    applyViewOp v (ViewOp.removeField fid)
      = some { v with vfields := v.vfields.filter (fun f => !(f.id == fid)) } := rfl

theorem inv_of_check_false (v : VState) (h : check_index_materialized v = false) :
    v.vfields.any (fun f => f.is_index) = true → v.materialized = true := by
  unfold check_index_materialized at h
  intro hany
  rw [hany, Bool.and_true] at h
  cases hm : v.materialized with
  | false => rw [hm] at h; simp at h
  | true => rfl

theorem ReachableView_inv (v : VState) (hv : ReachableView v) :
    v.vfields.any (fun f => f.is_index) = true → v.materialized = true := by
  induction hv with
  | init m => intro h; simp at h
  | step w op w' _ happ ih =>
    cases op with
    | setMaterialized b =>
      rw [applyViewOp_setMaterialized] at happ
      by_cases hchk : check_index_materialized { w with materialized := b } = true
      · rw [if_pos hchk] at happ
        exact Option.noConfusion happ
      · rw [if_neg hchk] at happ
        obtain rfl := Option.some.inj happ
        exact inv_of_check_false _ (by rwa [Bool.not_eq_true] at hchk)
    | setIndex fid b =>
      rw [applyViewOp_setIndex] at happ
      by_cases hchk : field_index_guard { w with vfields := w.vfields.map fun f =>
          if f.id = fid then { f with is_index := b } else f } = true
      · rw [if_pos hchk] at happ
        exact Option.noConfusion happ
      · rw [if_neg hchk] at happ
        obtain rfl := Option.some.inj happ
        exact inv_of_check_false _ (by rwa [Bool.not_eq_true] at hchk)
    | addField fid nm seq ty =>
      rw [applyViewOp_addField] at happ
      obtain rfl := Option.some.inj happ
      intro hany
      apply ih
      rw [List.any_eq_true] at hany ⊢
      obtain ⟨f, hf, hfi⟩ := hany
      rcases List.mem_append.mp hf with hf | hf
      · exact ⟨f, hf, hfi⟩
      · rw [List.mem_singleton] at hf
        subst hf
        simp at hfi
    | removeField fid =>
      rw [applyViewOp_removeField] at happ
      obtain rfl := Option.some.inj happ
      intro hany
      apply ih
      rw [List.any_eq_true] at hany ⊢
      obtain ⟨f, hf, hfi⟩ := hany
      exact ⟨f, List.mem_of_mem_filter hf, hfi⟩

/-- C9: on every reachable `bi.sql.view` state, a field with `is_index`
set exists only when `is_materialized` is true; moreover the operations
that could break the invariant are rejected — making the view non-
materialized while an indexed field exists fails the
`_check_index_materialized` constraint, and (per the spec-modelled
field-side guard) marking a field of a non-materialized view as indexed
fails the same check. -/
theorem view_index_invariant (v : VState) (hv : ReachableView v) :
    (v.vfields.any (fun f => f.is_index) = true → v.materialized = true)
    ∧ (v.vfields.any (fun f => f.is_index) = true
        → applyViewOp v (ViewOp.setMaterialized false) = none)
    ∧ (∀ f, v.materialized = false → f ∈ v.vfields
        → applyViewOp v (ViewOp.setIndex f.id true) = none) := by
  refine ⟨ReachableView_inv v hv, ?_, ?_⟩
  · intro hany
    have hchk : check_index_materialized { v with materialized := false } = true := by
      show (!false && v.vfields.any (fun f => f.is_index)) = true
      rw [hany]
      rfl
    rw [applyViewOp_setMaterialized, if_pos hchk]
  · intro f hmat hf
    have hchk : field_index_guard { v with vfields := v.vfields.map fun x =>
        if x.id = f.id then { x with is_index := true } else x } = true := by
      show (!v.materialized && (v.vfields.map fun x =>
        if x.id = f.id then { x with is_index := true } else x).any
          (fun g => g.is_index)) = true
      rw [hmat]
      have hany : (v.vfields.map fun x =>
          if x.id = f.id then { x with is_index := true } else x).any
            (fun g => g.is_index) = true := by
        rw [List.any_eq_true]
        refine ⟨_, List.mem_map_of_mem _ hf, ?_⟩
        simp
      rw [hany]
      rfl
    rw [applyViewOp_setIndex, if_pos hchk]

/-- C9 (witness): a reachable materialized view with an indexed field, on
which switching off `is_materialized` is rejected. -/
theorem view_index_invariant_witness :
    applyViewOp ⟨true, [⟨1, "x_a", 1, "integer", true⟩]⟩
      (ViewOp.setMaterialized false) = none := by
  have hreach : ReachableView ⟨true, [⟨1, "x_a", 1, "integer", true⟩]⟩ :=
    ReachableView.step ⟨true, [⟨1, "x_a", 1, "integer", false⟩]⟩ (ViewOp.setIndex 1 true) _
      (ReachableView.step ⟨true, []⟩ (ViewOp.addField 1 "x_a" 1 "integer") _
        (ReachableView.init true) (by decide)) (by decide)
  exact (view_index_invariant _ hreach).2.1 (by decide)
